import Mathlib

/-!
Verification of the svql subgraph-matching driver against its design
specification.  The definitions below are a shallow embedding of the C++
sources under `src/svql_driver/` (GraphConversion.cpp, SubCircuitReSolver.cpp,
SubCircuitSolver.cpp, SvqlPass.cpp).  RTLIL values are modelled as plain
inductive data: machine `int` becomes `Int` with explicit two's-complement
reduction at width 32, `RTLIL::Const` becomes a list of logic states,
pointers become `Option`, and Yosys containers become association lists.
-/

/-- `RTLIL::State`: the logic value of one constant bit
(S0 = 0, S1 = 1, Sx = 2, Sz = 3, Sa = 4, Sm = 5). -/
inductive State where
  | S0 | S1 | Sx | Sz | Sa | Sm
deriving DecidableEq, Repr

/-- `int(bit.data)` as used by `Graph::createConstant`. -/
def State.toInt : State → Int
  | .S0 => 0
  | .S1 => 1
  | .Sx => 2
  | .Sz => 3
  | .Sa => 4
  | .Sm => 5

/-- `RTLIL::Const`: a little-endian list of logic states. -/
abbrev Const := List State

/-- Value of a bit list read little-endian, `Sx`/`Sz`/... contributing 0,
exactly as the `ret |= 1 << i` accumulation in `Const::as_int` does. -/
def bitsToNat : List State → Nat
  | [] => 0
  | b :: rest => (if b = State.S1 then 1 else 0) + 2 * bitsToNat rest

/-- The bit list produced by the `RTLIL::Const(int, width)` constructor:
`width` bits, bit `i` of the given (already non-negative) value. -/
def natToBits : Nat → Nat → List State
  | 0, _ => []
  | w + 1, v => (if v % 2 = 1 then State.S1 else State.S0) :: natToBits w (v / 2)

/-- `RTLIL::Const::as_bool`: true iff some bit is `S1`. -/
def Const.as_bool (c : Const) : Bool :=
  c.any (fun b => b = State.S1)

/-- `RTLIL::Const::as_int(false)`: accumulate the first 32 bits into an
`int32_t`, so the result is the two's-complement reading of that pattern. -/
def Const.as_int (c : Const) : Int :=
  if bitsToNat (c.take 32) < 2147483648 then (bitsToNat (c.take 32) : Int)
  else (bitsToNat (c.take 32) : Int) - 4294967296

/-- `RTLIL::Const(int val, 32)`: 32 bits of the two's-complement pattern. -/
def Const.ofInt (v : Int) : Const :=
  natToBits 32 (v % 4294967296).toNat

/-- A C++ `bool` returned where an `RTLIL::Const` is expected converts via
`int`, i.e. through the `Const(int, 32)` constructor. -/
def Const.ofBool (b : Bool) : Const :=
  Const.ofInt (if b then 1 else 0)

/-- The parameter names coerced with `value.as_bool()` in `unifiedParam`
(`SubCircuitReSolver.cpp` lines 43-51, identical in `SubCircuitSolver.cpp`). -/
def boolParams : List String :=
  ["\\ARST_POLARITY", "\\A_SIGNED", "\\B_SIGNED", "\\CLK_ENABLE",
   "\\CLK_POLARITY", "\\CLR_POLARITY", "\\EN_POLARITY", "\\SET_POLARITY",
   "\\TRANSPARENT"]

/-- The parameter names coerced with `value.as_int()` in `unifiedParam`
(`SubCircuitReSolver.cpp` lines 57-75, identical in `SubCircuitSolver.cpp`). -/
def intParams : List String :=
  ["\\ABITS", "\\A_WIDTH", "\\B_WIDTH", "\\CTRL_IN_WIDTH", "\\CTRL_OUT_WIDTH",
   "\\OFFSET", "\\PORTID", "\\PRIORITY", "\\RD_PORTS", "\\SIZE",
   "\\STATE_BITS", "\\STATE_NUM", "\\STATE_NUM_LOG2", "\\STATE_RST",
   "\\S_WIDTH", "\\TRANS_NUM", "\\WIDTH", "\\WR_PORTS", "\\Y_WIDTH"]

/-- `RTLIL::IdString::begins_with`, at the level of character lists so that
concrete instances evaluate inside the kernel. -/
def strBeginsWith (s p : String) : Bool := p.data.isPrefixOf s.data

/-- `SubCircuitReSolver::unifiedParam` / `SubCircuitSolver::unifiedParam`:
for built-in cell types (`$...` but not `$_...`), a fixed table of parameter
names is coerced to bool or int semantics before comparison. -/
def unifiedParam (cell_type param : String) (value : Const) : Const :=
  if !(strBeginsWith cell_type "$") || strBeginsWith cell_type "$_" then value
  else if boolParams.contains param then Const.ofBool value.as_bool
  else if intParams.contains param then Const.ofInt value.as_int
  else value

/- ------------------------------------------------------------------ -/
/- Arithmetic facts about the Const encoding.                          -/
/- ------------------------------------------------------------------ -/

theorem bitsToNat_natToBits (w : Nat) : ∀ v, bitsToNat (natToBits w v) = v % 2 ^ w := by
  induction w with
  | zero => intro v; simp [natToBits, bitsToNat, Nat.mod_one]
  | succ w ih =>
    intro v
    have h2 : (2 : Nat) ^ (w + 1) = 2 * 2 ^ w := by ring
    rw [natToBits, bitsToNat, ih, h2, Nat.mod_mul]
    rcases Nat.mod_two_eq_zero_or_one v with h | h <;> simp [h]

theorem natToBits_length (w v : Nat) : (natToBits w v).length = w := by
  induction w generalizing v with
  | zero => simp [natToBits]
  | succ w ih => simp [natToBits, ih]

theorem bitsToNat_lt (l : List State) : bitsToNat l < 2 ^ l.length := by
  induction l with
  | nil => simp [bitsToNat]
  | cons b rest ih =>
    rw [bitsToNat]
    have h2 : (2 : Nat) ^ (b :: rest).length = 2 * 2 ^ rest.length := by
      simp [List.length_cons]; ring
    rw [h2]
    rcases Decidable.em (b = State.S1) with h | h <;> simp [h] <;> omega

theorem as_int_lower (c : Const) : -2147483648 ≤ c.as_int := by
  unfold Const.as_int
  split <;> omega

theorem as_int_upper (c : Const) : c.as_int < 2147483648 := by
  have hlen : (c.take 32).length ≤ 32 := by
    simp
  have hlt : bitsToNat (c.take 32) < 2 ^ 32 :=
    lt_of_lt_of_le (bitsToNat_lt _) (Nat.pow_le_pow_right (by norm_num) hlen)
  have h32 : (2 : Nat) ^ 32 = 4294967296 := by norm_num
  rw [h32] at hlt
  unfold Const.as_int
  split <;> omega

theorem as_int_ofInt (k : Int) (hlo : -2147483648 ≤ k) (hhi : k < 2147483648) :
    (Const.ofInt k).as_int = k := by
  have hmod_nonneg : 0 ≤ k % 4294967296 := by omega
  have hmod_lt : k % 4294967296 < 4294967296 := by omega
  have hval : k % 4294967296 = if 0 ≤ k then k else k + 4294967296 := by
    split <;> omega
  unfold Const.ofInt Const.as_int
  have hlen : (natToBits 32 (k % 4294967296).toNat).length = 32 :=
    natToBits_length _ _
  rw [List.take_of_length_le (by omega), bitsToNat_natToBits]
  have hmlt : (k % 4294967296).toNat < 2 ^ 32 := by
    omega
  rw [Nat.mod_eq_of_lt hmlt]
  split <;> omega

theorem as_bool_ofBool (b : Bool) : (Const.ofBool b).as_bool = b := by
  cases b <;> decide

/-- C9: parameter-value unification is idempotent — `unifiedParam` applied to
its own output (same cell type, same parameter name) returns that output
unchanged. -/
theorem unifiedParam_idempotent (t p : String) (v : Const) :
    unifiedParam t p (unifiedParam t p v) = unifiedParam t p v := by
  unfold unifiedParam
  split_ifs with h1 h2 h3
  · rfl
  · rw [as_bool_ofBool]
  · exact congrArg Const.ofInt (as_int_ofInt _ (as_int_lower _) (as_int_upper _))
  · rfl

/- ------------------------------------------------------------------ -/
/- Netlist data model (the read-only view of RTLIL the core consumes). -/
/- ------------------------------------------------------------------ -/

/-- `RTLIL::Wire`: name, bit width, attribute map, and the module-port index
(`port_id`, 0 when the wire is not a module-level port). -/
structure Wire where
  name : String
  width : Nat
  attributes : List (String × Const)
  port_id : Nat
deriving DecidableEq

/-- `RTLIL::SigBit`: one bit of a signal — either a literal logic state or a
bit of a wire.  `lit` corresponds to `wire == nullptr` with `data` valid,
`ofWire` to a non-null `wire` with `offset` valid. -/
inductive SigBit where
  | lit (s : State)
  | ofWire (w : Wire) (offset : Nat)
deriving DecidableEq

/-- `bit.wire`, a possibly-null pointer. -/
def SigBit.wire : SigBit → Option Wire
  | .lit _ => none
  | .ofWire w _ => some w

/-- `bit.is_wire()`. -/
def SigBit.is_wire (b : SigBit) : Bool := b.wire.isSome

/-- `RTLIL::Cell`: the fields read by the compatibility predicate and the
graph builder.  `connections` is the ordered port-name → signal map;
`outputPorts` models `cell->output(port)` (a property of the cell's type);
`moduleName` is `cell->module->name`. -/
structure Cell where
  name : String
  type : String
  parameters : List (String × Const)
  attributes : List (String × Const)
  connections : List (String × List SigBit)
  inputPorts : List String
  outputPorts : List String
  moduleName : String
deriving DecidableEq

/-- `cell->input(portname)`. -/
def Cell.input (c : Cell) (p : String) : Bool := c.inputPorts.contains p

/-- `cell->output(portname)`. -/
def Cell.output (c : Cell) (p : String) : Bool := c.outputPorts.contains p

/-- `cell->getPort(portname)`.  The solver only requests ports through a
total port mapping, so a missing port is modelled as the empty signal. -/
def Cell.getPort (c : Cell) (p : String) : List SigBit :=
  (c.connections.lookup p).getD []

/-- `svql::get_output_wires` (GraphConversion.cpp lines 11-22): walk the
cell's connections in order; for every output port push `bit.wire` for each
bit that `is_wire()`.  Entries are the pushed pointers, hence `Option`. -/
def get_output_wires (cell : Cell) : List (Option Wire) :=
  cell.connections.flatMap (fun conn =>
    if cell.output conn.1 then
      (conn.2.filter (fun b => b.is_wire)).map SigBit.wire
    else [])

/- ------------------------------------------------------------------ -/
/- The compatibility predicate (SubCircuitReSolver::userCompareNodes;   -/
/- the parameter, cell-attribute and wire-attribute stages are verbatim -/
/- identical in SubCircuitSolver::userCompareNodes).                    -/
/- ------------------------------------------------------------------ -/

/-- `compareAttributes` (both solver variants, lines 24-33): every
configured attribute name must be present on both sides with equal value,
or absent on both. -/
def compareAttributes (attr : List String) (needleAttr haystackAttr : List (String × Const)) : Bool :=
  attr.all (fun k =>
    match needleAttr.lookup k, haystackAttr.lookup k with
    | none, none => true
    | some v, some w => decide (v = w)
    | _, _ => false)

/-- `std::map` insertion `m[k] = v`: overwrite an existing binding, else
append the new one (keys stay unique). -/
def mapInsert (m : List (String × Const)) (k : String) (v : Const) : List (String × Const) :=
  if m.any (fun q => q.1 = k) then
    m.map (fun q => if q.1 = k then (k, v) else q)
  else m ++ [(k, v)]

/-- The filtered, unified parameter map built by `userCompareNodes`
(SubCircuitReSolver.cpp lines 94-100): parameters whose `(cellType, name)`
pair is in `ignoredParams` are excluded, the rest are unified by cell type. -/
def buildParamMap (ignoredParams : List (String × String)) (c : Cell) : List (String × Const) :=
  c.parameters.foldl (fun m it =>
    if ignoredParams.contains (c.type, it.1) then m
    else mapInsert m it.1 (unifiedParam c.type it.1 it.2)) []

/-- `std::map` equality: both maps bind exactly the same keys to the same
values. -/
def mapsEqual (a b : List (String × Const)) : Bool :=
  a.all (fun q => decide (b.lookup q.1 = some q.2)) &&
  b.all (fun q => decide (a.lookup q.1 = some q.2))

/-- Attribute set of the wire driving one bit; a constant or unconnected
bit contributes the empty set (`emptyAttr` in the source). -/
def wireAttrsOf : Option Wire → List (String × Const)
  | none => []
  | some w => w.attributes

/-- The flattened (needle wire, haystack wire) bit stream walked by the
wire-attribute loop: needle connections in order, each paired positionally
with the mapped haystack port and truncated to the shorter signal. -/
def wireAttrBits (needle haystack : Cell) (portMapping : String → String) : List (Option Wire × Option Wire) :=
  needle.connections.flatMap (fun conn =>
    (List.zip conn.2 (haystack.getPort (portMapping conn.1))).map
      (fun bp => (bp.1.wire, bp.2.wire)))

/-- The wire-attribute loop as written (SubCircuitReSolver.cpp lines
108-128): the comparison is skipped when the wire pair equals the
immediately preceding bit's pair; the last-seen pair persists across
connections and starts as (null, null). -/
def wireAttrLoop (wa : List String) : List (Option Wire × Option Wire) → Option Wire × Option Wire → Bool
  | [], _ => true
  | (nw, hw) :: rest, last =>
    if (nw, hw) = last then wireAttrLoop wa rest (nw, hw)
    else if compareAttributes wa (wireAttrsOf nw) (wireAttrsOf hw) then
      wireAttrLoop wa rest (nw, hw)
    else false

/-- The naive wire-attribute walk the spec describes: compare the attribute
sets at every bit position, with no adjacent-pair skipping. -/
def wireAttrNaive (wa : List String) (bits : List (Option Wire × Option Wire)) : Bool :=
  bits.all (fun bp => compareAttributes wa (wireAttrsOf bp.1) (wireAttrsOf bp.2))

/-- A compiled regular expression paired with its pattern text.  The
compilation and matching engine is the external `std::regex` collaborator;
the compiled object is modelled by the predicate it computes. -/
abbrev RegexEntry := (String → Bool) × String

/-- Modelled from the spec: `SubCircuitReSolver::matchesRegex` is declared
in SubCircuitReSolver.hpp but its body is not among the sources; per the
spec's regex scenario it tests the haystack signal name against the
compiled pattern. -/
def matchesRegex (name : String) (re : String → Bool) : Bool := re name

/-- The per-module regex table `RegexMap`: module name → signal name →
compiled regex entry. -/
abbrev RegexTable := List (String × List (String × RegexEntry))

/-- The regex loop of `SubCircuitReSolver::userCompareNodes` (lines
157-197): walk the needle output-wire list with its flat index; a null
needle wire or an unconfigured name is skipped; a configured name fails the
pair when the haystack list has no (non-null) wire at the same index or its
name does not match. -/
def regexLoop (sigRegexes : List (String × RegexEntry)) (hay : List (Option Wire)) : List (Option Wire) → Nat → Bool
  | [], _ => true
  | nw :: rest, i =>
    match nw with
    | none => regexLoop sigRegexes hay rest (i + 1)
    | some w =>
      match sigRegexes.lookup w.name with
      | none => regexLoop sigRegexes hay rest (i + 1)
      | some re =>
        match hay[i]? with
        | none => false
        | some none => false
        | some (some hw) =>
          if matchesRegex hw.name re.1 then regexLoop sigRegexes hay rest (i + 1)
          else false

/-- The regex stage of `userCompareNodes` (lines 134-198): nothing is
checked when the needle cell's owning module has no table entry. -/
def regexStage (regexMap : RegexTable) (needle haystack : Cell) : Bool :=
  match regexMap.lookup needle.moduleName with
  | none => true
  | some sigRegexes =>
    regexLoop sigRegexes (get_output_wires haystack) (get_output_wires needle) 0

/-- The solver-instance configuration consulted by `userCompareNodes`
(public knobs of SubCircuitReSolver plus its regex table). -/
structure SolverCfg where
  ignoreParameters : Bool
  ignoredParams : List (String × String)
  cell_attr : List String
  wire_attr : List String
  regexMap : RegexTable

/-- The body of `SubCircuitReSolver::userCompareNodes` once both cell
references are known non-null: the four stages in source order, each
short-circuiting the rest on failure. -/
def compareBody (cfg : SolverCfg) (needle haystack : Cell) (pm : String → String) : Bool :=
  (cfg.ignoreParameters ||
    mapsEqual (buildParamMap cfg.ignoredParams needle) (buildParamMap cfg.ignoredParams haystack)) &&
  ((cfg.cell_attr.isEmpty || compareAttributes cfg.cell_attr needle.attributes haystack.attributes) &&
  ((cfg.wire_attr.isEmpty || wireAttrLoop cfg.wire_attr (wireAttrBits needle haystack pm) (none, none)) &&
  regexStage cfg.regexMap needle haystack))

/-- `SubCircuitReSolver::userCompareNodes` (lines 81-201; the null-pointer
head, parameter, and attribute stages are identical in
`SubCircuitSolver::userCompareNodes`).  The user-data arguments are the
possibly-null cell pointers; `none` as a result models the `log_assert`
abort on a half-null pair (log_error terminates, nothing is returned). -/
def userCompareNodes (cfg : SolverCfg) (needle haystack : Option Cell) (pm : String → String) : Option Bool :=
  match needle, haystack with
  | none, none => some true
  | none, some _ => none
  | some _, none => none
  | some n, some h => some (compareBody cfg n h pm)

/- ------------------------------------------------------------------ -/
/- Facts about the compatibility predicate.                            -/
/- ------------------------------------------------------------------ -/

theorem compareAttributes_empty_both (wa : List String) :
    compareAttributes wa (wireAttrsOf none) (wireAttrsOf none) = true := by
  simp [compareAttributes, wireAttrsOf, List.lookup]

theorem wireAttrLoop_eq_naive (wa : List String) (bits : List (Option Wire × Option Wire)) :
    ∀ last, compareAttributes wa (wireAttrsOf last.1) (wireAttrsOf last.2) = true →
      wireAttrLoop wa bits last = wireAttrNaive wa bits := by
  induction bits with
  | nil => intro last h; rfl
  | cons bp rest ih =>
    rcases bp with ⟨nw, hw⟩
    intro last h
    by_cases heq : ((nw, hw) : Option Wire × Option Wire) = last
    · subst heq
      have hc : compareAttributes wa (wireAttrsOf nw) (wireAttrsOf hw) = true := by
        simpa using h
      simp [wireAttrLoop, wireAttrNaive, hc, ih (nw, hw) hc]
    · by_cases hc : compareAttributes wa (wireAttrsOf nw) (wireAttrsOf hw) = true
      · simp [wireAttrLoop, if_neg heq, hc, wireAttrNaive, ih (nw, hw) hc]
      · rw [Bool.not_eq_true] at hc
        simp [wireAttrLoop, if_neg heq, hc, wireAttrNaive]

/-- C7: the wire-attribute check with its adjacent-pair skip returns the
same boolean as the naive variant that compares the attribute sets at every
bit position, for every needle/haystack cell pair and port mapping. -/
theorem wireAttr_dedup_equiv (wa : List String) (needle haystack : Cell) (pm : String → String) :
    wireAttrLoop wa (wireAttrBits needle haystack pm) (none, none) =
      wireAttrNaive wa (wireAttrBits needle haystack pm) :=
  wireAttrLoop_eq_naive wa _ (none, none) (compareAttributes_empty_both wa)

/-- C5 amended: both user-data references null returns true; a half-null
pair trips `log_assert` (modelled `none`) instead of returning. -/
theorem userCompareNodes_null_cases (cfg : SolverCfg) (pm : String → String) (c : Cell) :
    userCompareNodes cfg none none pm = some true ∧
    userCompareNodes cfg none (some c) pm = none ∧
    userCompareNodes cfg (some c) none pm = none :=
  ⟨rfl, rfl, rfl⟩

/-- An empty solver configuration (no knobs set). -/
def emptyCfg : SolverCfg := ⟨false, [], [], [], []⟩

/-- A concrete cell with no parameters, attributes or connections. -/
def plainCell : Cell := ⟨"c0", "t0", [], [], [], [], [], "m0"⟩

/-- C5 counterexample: with only the haystack-side reference null the
function does not return true — the `log_assert (!needleCell &&
!haystackCell)` aborts the run (result `none`). -/
theorem userCompareNodes_half_null_aborts :
    userCompareNodes emptyCfg (some plainCell) none (fun s => s) = none ∧
    userCompareNodes emptyCfg (some plainCell) none (fun s => s) ≠ some true :=
  ⟨rfl, by decide⟩

/-- A needle-side cell carrying one parameter `\FOO`. -/
def fooParamCell : Cell := ⟨"nf", "tf", [("\\FOO", [State.S1])], [], [], [], [], "mf"⟩

/-- A haystack-side cell of the same type with no parameters. -/
def noParamCell : Cell := ⟨"hf", "tf", [], [], [], [], [], "mf"⟩

/-- The parameter filtering as claim C2 words it (spec §4.2 step 1): after
the exclusion filtering, parameters present on one side only are dropped
too, before the maps are compared. -/
def claimParamMap (ignoredParams : List (String × String)) (c other : Cell) : List (String × Const) :=
  (buildParamMap ignoredParams c).filter
    (fun q => ((buildParamMap ignoredParams other).lookup q.1).isSome)

/-- C2 counterexample: a parameter present on the needle side only (and not
in the exclusion set) makes `userCompareNodes` return false, while the
claimed one-side-only filtering would leave two equal (empty) maps. -/
theorem param_one_sided_rejects :
    userCompareNodes emptyCfg (some fooParamCell) (some noParamCell) (fun s => s) = some false ∧
    mapsEqual (claimParamMap [] fooParamCell noParamCell)
        (claimParamMap [] noParamCell fooParamCell) = true := by
  constructor
  · decide
  · decide

/-- C2 amended: when parameters are not ignored, the predicate fails the
parameter stage exactly when the exclusion-filtered unified maps differ (a
parameter present on one side only therefore rejects); when they agree the
result is that of the remaining stages. -/
theorem param_stage_decides (ip : List (String × String)) (ca wa : List String)
    (rm : RegexTable) (needle haystack : Cell) (pm : String → String) :
    compareBody ⟨false, ip, ca, wa, rm⟩ needle haystack pm =
      (mapsEqual (buildParamMap ip needle) (buildParamMap ip haystack) &&
        compareBody ⟨true, ip, ca, wa, rm⟩ needle haystack pm) := by
  unfold compareBody
  cases mapsEqual (buildParamMap ip needle) (buildParamMap ip haystack) <;> simp

/- ------------------------------------------------------------------ -/
/- The regex stage: pointwise specification and null-branch safety.    -/
/- ------------------------------------------------------------------ -/

/-- The per-position obligation of the regex stage as the spec words it: a
needle output bit whose wire name has a configured regex requires a same-
index non-null haystack wire whose name satisfies it; a null needle wire or
an unconfigured name imposes nothing. -/
def positionOk (sigRegexes : List (String × RegexEntry)) (hay : List (Option Wire))
    (i : Nat) (nw : Option Wire) : Bool :=
  match nw with
  | none => true
  | some w =>
    match sigRegexes.lookup w.name with
    | none => true
    | some re =>
      match hay[i]? with
      | none => false
      | some none => false
      | some (some hw) => matchesRegex hw.name re.1

/-- Conjunction of `positionOk` over the needle list from a start index. -/
def regexAll (sigRegexes : List (String × RegexEntry)) (hay : List (Option Wire)) :
    List (Option Wire) → Nat → Bool
  | [], _ => true
  | nw :: rest, i => positionOk sigRegexes hay i nw && regexAll sigRegexes hay rest (i + 1)

theorem regexLoop_eq_all (sr : List (String × RegexEntry)) (hay : List (Option Wire)) :
    ∀ (lst : List (Option Wire)) (i : Nat), regexLoop sr hay lst i = regexAll sr hay lst i := by
  intro lst
  induction lst with
  | nil => intro i; rfl
  | cons nw rest ih =>
    intro i
    cases nw with
    | none => simp [regexLoop, regexAll, positionOk, ih]
    | some w =>
      cases hl : sr.lookup w.name with
      | none => simp [regexLoop, regexAll, positionOk, hl, ih]
      | some re =>
        cases hg : hay[i]? with
        | none => simp [regexLoop, regexAll, positionOk, hl, hg]
        | some ow =>
          cases ow with
          | none => simp [regexLoop, regexAll, positionOk, hl, hg]
          | some hw =>
            by_cases hm : matchesRegex hw.name re.1 = true
            · simp [regexLoop, regexAll, positionOk, hl, hg, hm, ih]
            · rw [Bool.not_eq_true] at hm
              simp [regexLoop, regexAll, positionOk, hl, hg, hm]

/-- Modelled from the spec: the compiled form of the scenario pattern
`^sum_.*` — satisfied by names beginning with `sum_`. -/
def sumRegex : RegexEntry := (fun s => strBeginsWith s "sum_", "^sum_.*")

/-- The regex table of the spec's regex scenario: module `mod`, signal `Y`,
pattern `^sum_.*`. -/
def scenarioRegexTable : RegexTable := [("mod", [("Y", sumRegex)])]

def wireNameY : Wire := ⟨"Y", 1, [], 0⟩

def wireCarry1 : Wire := ⟨"carry_1", 1, [], 0⟩

def wireSum42 : Wire := ⟨"sum_42", 1, [], 0⟩

/-- The scenario needle cell: one output port `Y` driving wire `Y`, owned
by module `mod`. -/
def needleRegexCell : Cell :=
  ⟨"npat", "tmod", [], [], [("Y", [SigBit.ofWire wireNameY 0])], [], ["Y"], "mod"⟩

/-- A haystack candidate whose corresponding output wire is `carry_1`. -/
def haystackCarryCell : Cell :=
  ⟨"hc", "tmod", [], [], [("Y", [SigBit.ofWire wireCarry1 0])], [], ["Y"], "hmod"⟩

/-- A haystack candidate whose corresponding output wire is `sum_42`. -/
def haystackSumCell : Cell :=
  ⟨"hs", "tmod", [], [], [("Y", [SigBit.ofWire wireSum42 0])], [], ["Y"], "hmod"⟩

/-- C3: when a regex table entry exists for the needle cell's owning
module, the regex stage is the per-flat-index conjunction `positionOk` —
fail on a configured index with no (non-null) haystack wire or a
non-matching name, skip unconfigured or null needle positions — and on the
spec's scenario a haystack wire `carry_1` is rejected while `sum_42` is
accepted. -/
theorem regexStage_pointwise :
    (∀ (rm : RegexTable) (needle haystack : Cell),
        regexStage rm needle haystack =
          (match rm.lookup needle.moduleName with
           | none => true
           | some sr => regexAll sr (get_output_wires haystack) (get_output_wires needle) 0)) ∧
    regexStage scenarioRegexTable needleRegexCell haystackCarryCell = false ∧
    regexStage scenarioRegexTable needleRegexCell haystackSumCell = true := by
  refine ⟨?_, by decide, by decide⟩
  intro rm needle haystack
  unfold regexStage
  cases rm.lookup needle.moduleName with
  | none => rfl
  | some sr => exact regexLoop_eq_all sr _ _ 0

/-- The regex loop with the null-needle-wire skip branch replaced by the
opposite outcome; if the branch were reachable the two loops would differ. -/
def regexLoopStrict (sigRegexes : List (String × RegexEntry)) (hay : List (Option Wire)) :
    List (Option Wire) → Nat → Bool
  | [], _ => true
  | nw :: rest, i =>
    match nw with
    | none => false
    | some w =>
      match sigRegexes.lookup w.name with
      | none => regexLoopStrict sigRegexes hay rest (i + 1)
      | some re =>
        match hay[i]? with
        | none => false
        | some none => false
        | some (some hw) =>
          if matchesRegex hw.name re.1 then regexLoopStrict sigRegexes hay rest (i + 1)
          else false

theorem regexLoop_eq_strict_of_no_null (sr : List (String × RegexEntry)) (hay : List (Option Wire)) :
    ∀ (lst : List (Option Wire)) (i : Nat), lst.all Option.isSome = true →
      regexLoop sr hay lst i = regexLoopStrict sr hay lst i := by
  intro lst
  induction lst with
  | nil => intro i _; rfl
  | cons nw rest ih =>
    intro i h
    rw [List.all_cons, Bool.and_eq_true] at h
    cases nw with
    | none => simp at h
    | some w =>
      cases hl : sr.lookup w.name with
      | none => simp [regexLoop, regexLoopStrict, hl, ih _ h.2]
      | some re =>
        cases hg : hay[i]? with
        | none => simp [regexLoop, regexLoopStrict, hl, hg]
        | some ow =>
          cases ow with
          | none => simp [regexLoop, regexLoopStrict, hl, hg]
          | some hw =>
            by_cases hm : matchesRegex hw.name re.1 = true
            · simp [regexLoop, regexLoopStrict, hl, hg, hm, ih _ h.2]
            · rw [Bool.not_eq_true] at hm
              simp [regexLoop, regexLoopStrict, hl, hg, hm]

theorem get_output_wires_all_some (c : Cell) :
    (get_output_wires c).all Option.isSome = true := by
  unfold get_output_wires
  rw [List.all_eq_true]
  intro x hx
  rw [List.mem_flatMap] at hx
  obtain ⟨conn, _, hx⟩ := hx
  by_cases ho : c.output conn.1 = true
  · rw [if_pos ho, List.mem_map] at hx
    obtain ⟨b, hb, rfl⟩ := hx
    rw [List.mem_filter] at hb
    exact hb.2
  · rw [Bool.not_eq_true] at ho
    rw [ho] at hx
    simp at hx

/-- C10: `get_output_wires` pushes only wires backing output-port bits that
are actually wires, so its result never contains a null entry; in
consequence the null-wire skip branch of the regex loop is unreachable when
the needle list comes from `get_output_wires` — hardwiring that branch to
the opposite outcome cannot change the result. -/
theorem get_output_wires_no_null :
    (∀ (c : Cell), (get_output_wires c).all Option.isSome = true) ∧
    (∀ (sr : List (String × RegexEntry)) (hay : List (Option Wire)) (c : Cell) (i : Nat),
        regexLoop sr hay (get_output_wires c) i = regexLoopStrict sr hay (get_output_wires c) i) :=
  ⟨get_output_wires_all_some,
   fun sr hay c i => regexLoop_eq_strict_of_no_null sr hay _ i (get_output_wires_all_some c)⟩

/- ------------------------------------------------------------------ -/
/- Graph construction (svql::module2graph, GraphConversion.cpp).       -/
/- ------------------------------------------------------------------ -/

/-- `svql::bit_ref_t`: a (cell, port, bit-index) driver reference. -/
structure BitRef where
  cell : String
  port : String
  bit : Nat
deriving DecidableEq

/-- The boundary selection `RTLIL::Design *sel` restricted to one module:
whether the module itself, a cell of it, or a wire of it is selected. -/
structure Sel where
  selModule : Bool
  selCell : String → Bool
  selWire : String → Bool

/-- `!sel || sel->selected(mod, cell)`. -/
def cellSelected (sel : Option Sel) (c : Cell) : Bool :=
  match sel with
  | none => true
  | some s => s.selCell c.name

/-- `!sel || sel->selected(mod, wire)`. -/
def wireSelected (sel : Option Sel) (w : Wire) : Bool :=
  match sel with
  | none => true
  | some s => s.selWire w.name

/-- The module as the graph builder reads it; `processCount` is the number
of entries of `mod->processes`. -/
structure RModule where
  name : String
  cells : List Cell
  wires : List Wire
  processCount : Nat

/-- A node record of the populated `SubCircuit::Graph`: the arguments of
one `createNode` call (name, type, user-data pointer, extern flag). -/
structure GNode where
  name : String
  type : String
  userData : Option Cell
  ext : Bool
deriving DecidableEq

/-- The populated graph as the record of builder calls: nodes, ports,
point-to-point connections, inline constants, and extern marks. -/
structure Graph where
  nodes : List GNode
  ports : List (String × String × Nat)
  conns : List (BitRef × BitRef)
  constants : List (BitRef × Int)
  externs : List BitRef
deriving DecidableEq

/-- The four constant nodes created in `constports` mode (lines 44-47). -/
def constNodes : List GNode :=
  [⟨"$const$0", "$const$0", none, true⟩, ⟨"$const$1", "$const$1", none, true⟩,
   ⟨"$const$x", "$const$x", none, true⟩, ⟨"$const$z", "$const$z", none, true⟩]

/-- Their single-bit `\Y` ports (lines 48-51). -/
def constPortList : List (String × String × Nat) :=
  [("$const$0", "\\Y", 1), ("$const$1", "\\Y", 1),
   ("$const$x", "\\Y", 1), ("$const$z", "\\Y", 1)]

/-- Their extern marks (lines 52-55). -/
def constExternList : List BitRef :=
  [⟨"$const$0", "\\Y", 0⟩, ⟨"$const$1", "\\Y", 0⟩,
   ⟨"$const$x", "\\Y", 0⟩, ⟨"$const$z", "\\Y", 0⟩]

/-- Constant-node choice for a literal bit (lines 102-108): `$const$x`
unless the state is 0, 1 or z. -/
def constNodeName : State → String
  | State.S0 => "$const$0"
  | State.S1 => "$const$1"
  | State.Sz => "$const$z"
  | _ => "$const$x"

/-- The `sig_use_count` pre-computation (lines 58-71): how many connection
bit positions of selected cells reference the canonical (wire, offset)
pair.  Every connection is counted — input and output ports alike. -/
def sigUseCount (mod : RModule) (sel : Option Sel) (sigmap : SigBit → SigBit)
    (w : Wire) (o : Nat) : Nat :=
  ((mod.cells.filter (fun c => cellSelected sel c)).flatMap
      (fun c => c.connections.flatMap (fun conn => conn.2.map sigmap))).countP
    (fun b => decide (b = SigBit.ofWire w o))

/-- `split && split->count({cell->type, conn.first}) > 0` (line 88). -/
def splitHit (split : Option (List (String × String))) (c : Cell) (pn : String) : Bool :=
  match split with
  | none => false
  | some sp => sp.contains (c.type, pn)

/-- One surviving action of the main per-bit loop (lines 94-132). -/
inductive BitOcc where
  | constAct (pos : BitRef) (data : State)
  | wireAct (b : SigBit) (pos : BitRef)
deriving DecidableEq

/-- The per-bit guards and action for the already-canonicalized bit at flat
index `p.1` of connection `pn` of cell `c` (lines 96-131): a literal bit
always yields a constant action; a wire bit is dropped by the fan-out cap
or by a non-selected wire, else yields a wire action. -/
def bitAct (mod : RModule) (sel : Option Sel) (max_fanout : Int) (sigmap : SigBit → SigBit)
    (c : Cell) (pn : String) (p : Nat × SigBit) : Option BitOcc :=
  match p.2 with
  | SigBit.lit s => some (BitOcc.constAct ⟨c.name, pn, p.1⟩ s)
  | SigBit.ofWire w o =>
    if max_fanout > 0 ∧ (max_fanout : Int) < (sigUseCount mod sel sigmap w o : Int) then none
    else if wireSelected sel w = false then none
    else some (BitOcc.wireAct (SigBit.ofWire w o) ⟨c.name, pn, p.1⟩)

/-- The surviving actions of one connection of one cell: nothing when the
`(cellType, portName)` pair is split (line 88), else the guarded bits of
the sigmapped signal, in order, with their flat indices. -/
def connActs (mod : RModule) (sel : Option Sel) (max_fanout : Int)
    (split : Option (List (String × String))) (sigmap : SigBit → SigBit)
    (c : Cell) (conn : String × List SigBit) : List BitOcc :=
  if splitHit split c conn.1 then []
  else (conn.2.map sigmap).enum.filterMap (bitAct mod sel max_fanout sigmap c conn.1)

/-- The surviving actions of one cell, connection by connection. -/
def cellActs (mod : RModule) (sel : Option Sel) (max_fanout : Int)
    (split : Option (List (String × String))) (sigmap : SigBit → SigBit)
    (c : Cell) : List BitOcc :=
  c.connections.flatMap (connActs mod sel max_fanout split sigmap c)

/-- All surviving per-bit actions of the conversion loop, in cell →
connection → bit iteration order (selected cells only). -/
def bitOccs (mod : RModule) (sel : Option Sel) (max_fanout : Int)
    (split : Option (List (String × String))) (sigmap : SigBit → SigBit) : List BitOcc :=
  (mod.cells.filter (fun c => cellSelected sel c)).flatMap
    (cellActs mod sel max_fanout split sigmap)

/-- Key lookup in the `sig_bit_ref` map (`std::map::count` / `operator[]`
on an existing key). -/
def mlookup : List (SigBit × BitRef) → SigBit → Option BitRef
  | [], _ => none
  | (k, v) :: rest, b => if k = b then some v else mlookup rest b

/-- The connection/constant builder (lines 98-132) folded over the
surviving actions, threading the `sig_bit_ref` driver map: result is
(connections, inline constants, final driver map).  A literal bit becomes a
pin→constant-node edge in `constports` mode and an inline constant record
otherwise; a wire bit's first occurrence records itself and every
occurrence connects from the recorded reference to the current position. -/
def buildConns (constports : Bool) : List BitOcc → List (SigBit × BitRef) →
    List (BitRef × BitRef) × List (BitRef × Int) × List (SigBit × BitRef)
  | [], m => ([], [], m)
  | BitOcc.constAct pos s :: rest, m =>
    let r := buildConns constports rest m
    if constports then ((pos, ⟨constNodeName s, "\\Y", 0⟩) :: r.1, r.2.1, r.2.2)
    else (r.1, (pos, s.toInt) :: r.2.1, r.2.2)
  | BitOcc.wireAct b pos :: rest, m =>
    match mlookup m b with
    | some r0 =>
      let r := buildConns constports rest m
      ((r0, pos) :: r.1, r.2.1, r.2.2)
    | none =>
      let r := buildConns constports rest (m ++ [(b, pos)])
      ((pos, pos) :: r.1, r.2.1, r.2.2)

/-- `if (sel == nullptr && type.compare(0, 2, "\\$") == 0) type =
type.substr(1)` (lines 79-81). -/
def nodeType (sel : Option Sel) (c : Cell) : String :=
  if sel.isNone ∧ c.type.data.take 2 = "\\$".data then ⟨c.type.data.drop 1⟩
  else c.type

/-- The extern-marking pass over bits of non-selected cells (lines
137-152): any recorded driver reference of a bit also used by a
non-selected cell is marked. -/
def nonSelExterns (mod : RModule) (sel : Option Sel) (sigmap : SigBit → SigBit)
    (m : List (SigBit × BitRef)) : List BitRef :=
  mod.cells.flatMap (fun c =>
    if cellSelected sel c then []
    else c.connections.flatMap (fun conn =>
      (conn.2.map sigmap).filterMap (fun b => mlookup m b)))

/-- The extern-marking pass over module-port wires (lines 155-169). -/
def portExterns (mod : RModule) (sigmap : SigBit → SigBit)
    (m : List (SigBit × BitRef)) : List BitRef :=
  mod.wires.flatMap (fun w =>
    if w.port_id > 0 then
      ((List.range w.width).map (fun i => sigmap (SigBit.ofWire w i))).filterMap
        (fun b => mlookup m b)
    else [])

/-- `sel && !sel->selected(mod)` (line 30). -/
def modRejected (sel : Option Sel) : Bool :=
  match sel with
  | none => false
  | some s => !s.selModule

/-- `svql::module2graph` (GraphConversion.cpp lines 24-173): `none` models
the boolean-false rejection outcome; otherwise the populated graph. -/
def module2graph (mod : RModule) (constports : Bool) (sel : Option Sel)
    (max_fanout : Int) (split : Option (List (String × String)))
    (sigmap : SigBit → SigBit) : Option Graph :=
  if modRejected sel then none
  else if 0 < mod.processCount then none
  else
    let built := buildConns constports (bitOccs mod sel max_fanout split sigmap) []
    some
      { nodes := (if constports then constNodes else []) ++
          (mod.cells.filter (fun c => cellSelected sel c)).map
            (fun c => ⟨c.name, nodeType sel c, some c, false⟩),
        ports := (if constports then constPortList else []) ++
          (mod.cells.filter (fun c => cellSelected sel c)).flatMap
            (fun c => c.connections.map (fun conn => (c.name, conn.1, conn.2.length))),
        conns := built.1,
        constants := built.2.1,
        externs := (if constports then constExternList else []) ++
          (nonSelExterns mod sel sigmap built.2.2 ++ portExterns mod sigmap built.2.2) }

/- ------------------------------------------------------------------ -/
/- Driver resolution: first-occurrence references and uniqueness.      -/
/- ------------------------------------------------------------------ -/

/-- The driver reference the loop assigns to a canonical bit: the position
of the bit's first surviving wire occurrence. -/
def firstWireRef : List BitOcc → SigBit → Option BitRef
  | [], _ => none
  | BitOcc.constAct _ _ :: rest, b => firstWireRef rest b
  | BitOcc.wireAct b0 pos :: rest, b =>
    if b0 = b then some pos else firstWireRef rest b

/-- Reference used for a wire action: a binding already in the driver map,
else the bit's first occurrence in the action list. -/
def refUnder (m : List (SigBit × BitRef)) (occs : List BitOcc) (b : SigBit) (pos : BitRef) : BitRef :=
  match mlookup m b with
  | some r => r
  | none => (firstWireRef occs b).getD pos

/-- The connection list as the spec describes it: a surviving literal bit
yields its pin↔constant-node edge in `constports` mode, and every surviving
wire bit yields an edge from its bit's driver reference to the current
position. -/
def specConnsUnder (constports : Bool) (m : List (SigBit × BitRef)) (occs : List BitOcc) :
    List (BitRef × BitRef) :=
  occs.filterMap (fun occ =>
    match occ with
    | BitOcc.constAct pos s =>
      if constports then some (pos, ⟨constNodeName s, "\\Y", 0⟩) else none
    | BitOcc.wireAct b pos => some (refUnder m occs b pos, pos))

theorem mlookup_append_one (b0 : SigBit) (pos0 : BitRef) :
    ∀ (m : List (SigBit × BitRef)) (b : SigBit),
      mlookup (m ++ [(b0, pos0)]) b =
        match mlookup m b with
        | some r => some r
        | none => if b = b0 then some pos0 else none := by
  intro m
  induction m with
  | nil =>
    intro b
    by_cases hb : b0 = b
    · subst hb
      simp [mlookup]
    · have hb2 : ¬ b = b0 := fun h => hb h.symm
      simp [mlookup, hb, hb2]
  | cons kv rest ih =>
    intro b
    rcases kv with ⟨k, v⟩
    by_cases hk : k = b
    · simp [mlookup, hk]
    · simp [mlookup, hk, ih b]

theorem buildConns_conns (cp : Bool) :
    ∀ (occs : List BitOcc) (m : List (SigBit × BitRef)),
      (buildConns cp occs m).1 = specConnsUnder cp m occs := by
  intro occs
  induction occs with
  | nil => intro m; rfl
  | cons occ rest ih =>
    intro m
    cases occ with
    | constAct pos s =>
      have htail : specConnsUnder cp m (BitOcc.constAct pos s :: rest) =
          (if cp then [(pos, (⟨constNodeName s, "\\Y", 0⟩ : BitRef))] else []) ++
            specConnsUnder cp m rest := by
        unfold specConnsUnder
        rw [List.filterMap_cons]
        cases cp with
        | false =>
          simp only [Bool.false_eq_true, if_false, List.nil_append]
          exact List.filterMap_congr (fun x _ => by
            cases x with
            | constAct q t => rfl
            | wireAct b q => simp [refUnder, firstWireRef])
        | true =>
          simp only [if_true, List.singleton_append]
          refine congrArg _ ?_
          exact List.filterMap_congr (fun x _ => by
            cases x with
            | constAct q t => rfl
            | wireAct b q => simp [refUnder, firstWireRef])
      rw [htail]
      cases cp with
      | false => simpa [buildConns] using ih m
      | true => simpa [buildConns] using ih m
    | wireAct b0 pos0 =>
      cases hm : mlookup m b0 with
      | some r0 =>
        have hhead : refUnder m (BitOcc.wireAct b0 pos0 :: rest) b0 pos0 = r0 := by
          simp [refUnder, hm]
        have htail : specConnsUnder cp m (BitOcc.wireAct b0 pos0 :: rest) =
            (r0, pos0) :: specConnsUnder cp m rest := by
          unfold specConnsUnder
          rw [List.filterMap_cons]
          simp only [hhead]
          refine congrArg _ ?_
          refine List.filterMap_congr (fun x _ => ?_)
          cases x with
          | constAct q t => rfl
          | wireAct b q =>
            simp only [Option.some.injEq, Prod.mk.injEq, and_true]
            unfold refUnder
            cases hmb : mlookup m b with
            | some r => rfl
            | none =>
              have hne : b0 ≠ b := by
                intro h; rw [h] at hm; rw [hm] at hmb; cases hmb
              simp [firstWireRef, hne]
        rw [htail]
        simp only [buildConns, hm]
        rw [ih m]
      | none =>
        have hhead : refUnder m (BitOcc.wireAct b0 pos0 :: rest) b0 pos0 = pos0 := by
          simp [refUnder, hm, firstWireRef]
        have htail : specConnsUnder cp m (BitOcc.wireAct b0 pos0 :: rest) =
            (pos0, pos0) :: specConnsUnder cp (m ++ [(b0, pos0)]) rest := by
          unfold specConnsUnder
          rw [List.filterMap_cons]
          simp only [hhead]
          refine congrArg _ ?_
          refine List.filterMap_congr (fun x _ => ?_)
          cases x with
          | constAct q t => rfl
          | wireAct b q =>
            simp only [Option.some.injEq, Prod.mk.injEq, and_true]
            unfold refUnder
            rw [mlookup_append_one]
            cases hmb : mlookup m b with
            | some r => rfl
            | none =>
              by_cases hb : b = b0
              · subst hb
                simp [firstWireRef]
              · have hb2 : ¬ b0 = b := fun h => hb h.symm
                simp [firstWireRef, hb, hb2]
        rw [htail]
        simp only [buildConns, hm]
        rw [ih (m ++ [(b0, pos0)])]

theorem buildConns_map (cp : Bool) :
    ∀ (occs : List BitOcc) (m : List (SigBit × BitRef)) (b : SigBit),
      mlookup (buildConns cp occs m).2.2 b =
        match mlookup m b with
        | some r => some r
        | none => firstWireRef occs b := by
  intro occs
  induction occs with
  | nil =>
    intro m b
    simp only [buildConns, firstWireRef]
    cases mlookup m b <;> rfl
  | cons occ rest ih =>
    intro m b
    cases occ with
    | constAct pos s =>
      have hmap : (buildConns cp (BitOcc.constAct pos s :: rest) m).2.2 =
          (buildConns cp rest m).2.2 := by
        simp only [buildConns]
        cases cp <;> rfl
      rw [hmap, ih m b]
      rfl
    | wireAct b0 pos0 =>
      cases hm : mlookup m b0 with
      | some r0 =>
        have hmap : (buildConns cp (BitOcc.wireAct b0 pos0 :: rest) m).2.2 =
            (buildConns cp rest m).2.2 := by
          simp only [buildConns, hm]
        rw [hmap, ih m b]
        cases hmb : mlookup m b with
        | some r => rfl
        | none =>
          have hne : b0 ≠ b := by
            intro h; rw [h] at hm; rw [hm] at hmb; cases hmb
          simp [firstWireRef, hne]
      | none =>
        have hmap : (buildConns cp (BitOcc.wireAct b0 pos0 :: rest) m).2.2 =
            (buildConns cp rest (m ++ [(b0, pos0)])).2.2 := by
          simp only [buildConns, hm]
        rw [hmap, ih (m ++ [(b0, pos0)]) b, mlookup_append_one]
        cases hmb : mlookup m b with
        | some r => rfl
        | none =>
          by_cases hb : b = b0
          · subst hb
            simp [firstWireRef]
          · have hb2 : ¬ b0 = b := fun h => hb h.symm
            simp [firstWireRef, hb, hb2]

/-- Destinations of the driver-resolution connections: the positions of the
surviving wire actions (each wire action creates exactly one connection
whose destination is its position). -/
def resolutionDests (occs : List BitOcc) : List BitRef :=
  occs.filterMap (fun occ =>
    match occ with
    | BitOcc.constAct _ _ => none
    | BitOcc.wireAct _ pos => some pos)

theorem filterMap_flatMap_comm {α β γ : Type _} (l : List α) (f : α → List β) (g : β → Option γ) :
    (l.flatMap f).filterMap g = l.flatMap (fun x => (f x).filterMap g) := by
  induction l with
  | nil => rfl
  | cons a l ih => simp only [List.flatMap_cons, List.filterMap_append, ih]

theorem nodup_filterMap_of_key {α β γ : Type _} (key : β → γ) (keyf : α → γ)
    (f : α → Option β) (l : List α)
    (hkey : ∀ a b, f a = some b → key b = keyf a)
    (hl : (l.map keyf).Nodup) : (l.filterMap f).Nodup := by
  induction l with
  | nil => simp
  | cons a l ih =>
    rw [List.map_cons, List.nodup_cons] at hl
    rw [List.filterMap_cons]
    cases hfa : f a with
    | none => exact ih hl.2
    | some b =>
      rw [List.nodup_cons]
      refine ⟨?_, ih hl.2⟩
      intro hmem
      rw [List.mem_filterMap] at hmem
      obtain ⟨a2, ha2, hfa2⟩ := hmem
      exact hl.1 (by
        rw [← hkey a b hfa, hkey a2 b hfa2]
        exact List.mem_map_of_mem keyf ha2)

theorem nodup_flatMap_of_key {α β γ : Type _} (key : β → γ) (keyf : α → γ)
    (f : α → List β) (l : List α)
    (hkey : ∀ a b, b ∈ f a → key b = keyf a)
    (hnod : ∀ a ∈ l, (f a).Nodup)
    (hl : (l.map keyf).Nodup) : (l.flatMap f).Nodup := by
  rw [List.nodup_flatMap]
  refine ⟨hnod, ?_⟩
  have hp : l.Pairwise (fun a a2 => keyf a ≠ keyf a2) := by
    have := hl
    rw [List.Nodup, List.pairwise_map] at this
    exact this
  refine hp.imp ?_
  intro a a2 hne x hx1 hx2
  exact hne (by rw [← hkey a x hx1, hkey a2 x hx2])

/-- The destination extracted from one action (none for constants). -/
def destOf : BitOcc → Option BitRef
  | BitOcc.constAct _ _ => none
  | BitOcc.wireAct _ pos => some pos

theorem resolutionDests_eq (occs : List BitOcc) :
    resolutionDests occs = occs.filterMap destOf := by
  unfold resolutionDests
  refine List.filterMap_congr (fun x _ => ?_)
  cases x <;> rfl

theorem bitAct_dest (mod : RModule) (sel : Option Sel) (mf : Int) (sigmap : SigBit → SigBit)
    (c : Cell) (pn : String) (p : Nat × SigBit) (pos : BitRef) :
    (bitAct mod sel mf sigmap c pn p).bind destOf = some pos →
      pos = ⟨c.name, pn, p.1⟩ := by
  obtain ⟨i, bb⟩ := p
  cases bb with
  | lit s =>
    intro h
    simp [bitAct, destOf] at h
  | ofWire w o =>
    intro h
    simp only [bitAct] at h
    by_cases h1 : (mf > 0 ∧ (mf : Int) < (sigUseCount mod sel sigmap w o : Int))
    · rw [if_pos h1] at h
      simp at h
    · rw [if_neg h1] at h
      by_cases h2 : wireSelected sel w = false
      · rw [if_pos h2] at h
        simp at h
      · rw [if_neg h2] at h
        simp only [Option.some_bind, destOf, Option.some.injEq] at h
        exact h.symm

theorem dests_connActs_nodup (mod : RModule) (sel : Option Sel) (mf : Int)
    (split : Option (List (String × String))) (sigmap : SigBit → SigBit)
    (c : Cell) (conn : String × List SigBit) :
    (resolutionDests (connActs mod sel mf split sigmap c conn)).Nodup := by
  rw [resolutionDests_eq]
  unfold connActs
  by_cases hs : splitHit split c conn.1 = true
  · simp [hs]
  · rw [Bool.not_eq_true] at hs
    rw [hs]
    simp only [Bool.false_eq_true, if_false]
    rw [List.filterMap_filterMap]
    refine nodup_filterMap_of_key BitRef.bit Prod.fst _ _ ?_ ?_
    · intro p pos h
      rw [bitAct_dest mod sel mf sigmap c conn.1 p pos h]
    · rw [List.enum_map_fst]
      exact List.nodup_range _

theorem mem_dests_connActs (mod : RModule) (sel : Option Sel) (mf : Int)
    (split : Option (List (String × String))) (sigmap : SigBit → SigBit)
    (c : Cell) (conn : String × List SigBit) (pos : BitRef) :
    pos ∈ resolutionDests (connActs mod sel mf split sigmap c conn) →
      pos.cell = c.name ∧ pos.port = conn.1 := by
  rw [resolutionDests_eq]
  unfold connActs
  by_cases hs : splitHit split c conn.1 = true
  · simp [hs]
  · rw [Bool.not_eq_true] at hs
    rw [hs]
    simp only [Bool.false_eq_true, if_false]
    rw [List.filterMap_filterMap, List.mem_filterMap]
    rintro ⟨p, _, hp⟩
    rw [bitAct_dest mod sel mf sigmap c conn.1 p pos hp]
    exact ⟨rfl, rfl⟩

theorem dests_cellActs_nodup (mod : RModule) (sel : Option Sel) (mf : Int)
    (split : Option (List (String × String))) (sigmap : SigBit → SigBit)
    (c : Cell) (hc : (c.connections.map Prod.fst).Nodup) :
    (resolutionDests (cellActs mod sel mf split sigmap c)).Nodup := by
  rw [resolutionDests_eq]
  unfold cellActs
  rw [filterMap_flatMap_comm]
  refine nodup_flatMap_of_key BitRef.port Prod.fst _ _ ?_ ?_ hc
  · intro conn pos h
    have := mem_dests_connActs mod sel mf split sigmap c conn pos
    rw [resolutionDests_eq] at this
    exact (this h).2
  · intro conn _
    have := dests_connActs_nodup mod sel mf split sigmap c conn
    rw [resolutionDests_eq] at this
    exact this

theorem mem_dests_cellActs (mod : RModule) (sel : Option Sel) (mf : Int)
    (split : Option (List (String × String))) (sigmap : SigBit → SigBit)
    (c : Cell) (pos : BitRef) :
    pos ∈ resolutionDests (cellActs mod sel mf split sigmap c) → pos.cell = c.name := by
  rw [resolutionDests_eq]
  unfold cellActs
  rw [filterMap_flatMap_comm, List.mem_flatMap]
  rintro ⟨conn, _, hmem⟩
  have := mem_dests_connActs mod sel mf split sigmap c conn pos
  rw [resolutionDests_eq] at this
  exact (this hmem).1

theorem resolutionDests_nodup (mod : RModule) (sel : Option Sel) (mf : Int)
    (split : Option (List (String × String))) (sigmap : SigBit → SigBit)
    (hcells : (mod.cells.map Cell.name).Nodup)
    (hports : ∀ c ∈ mod.cells, (c.connections.map Prod.fst).Nodup) :
    (resolutionDests (bitOccs mod sel mf split sigmap)).Nodup := by
  rw [resolutionDests_eq]
  unfold bitOccs
  rw [filterMap_flatMap_comm]
  refine nodup_flatMap_of_key BitRef.cell Cell.name _ _ ?_ ?_ ?_
  · intro c pos h
    have := mem_dests_cellActs mod sel mf split sigmap c pos
    rw [resolutionDests_eq] at this
    exact this h
  · intro c hcmem
    have hcm : c ∈ mod.cells := List.mem_of_mem_filter hcmem
    have := dests_cellActs_nodup mod sel mf split sigmap c (hports c hcm)
    rw [resolutionDests_eq] at this
    exact this
  · exact List.Nodup.sublist (List.Sublist.map _ (List.filter_sublist _)) hcells

/-- C4: the driver map records each canonical bit's first surviving
occurrence; every resolution connection runs from the recorded reference to
the current position (`specConnsUnder`, also inside `module2graph`); and
with unique cell names and per-cell unique port names, every (node, port,
bit) position is the destination of at most one resolution connection —
while one recorded reference may be the source of many. -/
theorem driver_resolution_unique (mod : RModule) (cp : Bool) (sel : Option Sel)
    (mf : Int) (split : Option (List (String × String))) (sigmap : SigBit → SigBit)
    (hcells : (mod.cells.map Cell.name).Nodup)
    (hports : ∀ c ∈ mod.cells, (c.connections.map Prod.fst).Nodup) :
    (∀ b, mlookup (buildConns cp (bitOccs mod sel mf split sigmap) []).2.2 b =
        firstWireRef (bitOccs mod sel mf split sigmap) b) ∧
    (buildConns cp (bitOccs mod sel mf split sigmap) []).1 =
        specConnsUnder cp [] (bitOccs mod sel mf split sigmap) ∧
    ((module2graph mod cp sel mf split sigmap).all (fun g =>
        decide (g.conns = specConnsUnder cp [] (bitOccs mod sel mf split sigmap)))) = true ∧
    (resolutionDests (bitOccs mod sel mf split sigmap)).Nodup := by
  refine ⟨?_, buildConns_conns cp _ [], ?_,
    resolutionDests_nodup mod sel mf split sigmap hcells hports⟩
  · intro b
    rw [buildConns_map cp _ [] b]
    rfl
  · unfold module2graph
    by_cases h1 : modRejected sel = true
    · simp [h1]
    · rw [Bool.not_eq_true] at h1
      by_cases h2 : 0 < mod.processCount
      · simp [h1, h2]
      · simp [h1, h2, Option.all, buildConns_conns cp _ []]

def vWire : Wire := ⟨"v", 1, [], 0⟩

def c4DrvCell : Cell :=
  ⟨"d4", "t4", [], [], [("\\Y", [SigBit.ofWire vWire 0])], [], ["\\Y"], "m4"⟩

def c4SnkCell : Cell :=
  ⟨"s4", "t4", [], [], [("\\A", [SigBit.ofWire vWire 0])], ["\\A"], [], "m4"⟩

/-- A two-cell module (one driver, one sink on wire `v`). -/
def c4Module : RModule := ⟨"m4", [c4DrvCell, c4SnkCell], [vWire], 0⟩

theorem driver_resolution_unique_witness :
    ((c4Module.cells.map Cell.name).Nodup ∧
      ∀ c ∈ c4Module.cells, (c.connections.map Prod.fst).Nodup) ∧
    ((∀ b, mlookup (buildConns false (bitOccs c4Module none (-1) none (fun b => b)) []).2.2 b =
        firstWireRef (bitOccs c4Module none (-1) none (fun b => b)) b) ∧
    (buildConns false (bitOccs c4Module none (-1) none (fun b => b)) []).1 =
        specConnsUnder false [] (bitOccs c4Module none (-1) none (fun b => b)) ∧
    ((module2graph c4Module false none (-1) none (fun b => b)).all (fun g =>
        decide (g.conns = specConnsUnder false [] (bitOccs c4Module none (-1) none (fun b => b))))) = true ∧
    (resolutionDests (bitOccs c4Module none (-1) none (fun b => b))).Nodup) :=
  ⟨⟨by decide, by decide⟩,
   driver_resolution_unique c4Module false none (-1) none (fun b => b) (by decide) (by decide)⟩

/-- C6: `module2graph` rejects (returns the failure outcome) exactly when
the module is outside the selection or still contains processes; in every
other case it returns the populated graph, holding a node and the declared
ports for every selected cell — no partial failure past the checks. -/
theorem module2graph_reject_iff (mod : RModule) (cp : Bool) (sel : Option Sel)
    (mf : Int) (split : Option (List (String × String))) (sigmap : SigBit → SigBit) :
    (module2graph mod cp sel mf split sigmap = none ↔
      (modRejected sel = true ∨ 0 < mod.processCount)) ∧
    ((match module2graph mod cp sel mf split sigmap with
      | none => true
      | some g =>
        (mod.cells.filter (fun c => cellSelected sel c)).all (fun c =>
          decide ((⟨c.name, nodeType sel c, some c, false⟩ : GNode) ∈ g.nodes) &&
          c.connections.all (fun conn =>
            decide ((c.name, conn.1, conn.2.length) ∈ g.ports)))) = true) := by
  constructor
  · unfold module2graph
    by_cases h1 : modRejected sel = true
    · simp [h1]
    · rw [Bool.not_eq_true] at h1
      by_cases h2 : 0 < mod.processCount
      · simp [h1, h2]
      · simp [h1, h2]
  · unfold module2graph
    by_cases h1 : modRejected sel = true
    · simp [h1]
    · rw [Bool.not_eq_true] at h1
      by_cases h2 : 0 < mod.processCount
      · simp [h1, h2]
      · simp only [h1, Bool.false_eq_true, if_false, if_neg h2]
        rw [List.all_eq_true]
        intro c hc
        rw [Bool.and_eq_true]
        constructor
        · rw [decide_eq_true_eq]
          exact List.mem_append.mpr (Or.inr (List.mem_map_of_mem _ hc))
        · rw [List.all_eq_true]
          intro conn hconn
          rw [decide_eq_true_eq]
          refine List.mem_append.mpr (Or.inr ?_)
          rw [List.mem_flatMap]
          exact ⟨c, hc, List.mem_map_of_mem _ hconn⟩

def fanWire : Wire := ⟨"w", 1, [], 0⟩

def fanDrvCell : Cell :=
  ⟨"drv", "tdrv", [], [], [("\\Y", [SigBit.ofWire fanWire 0])], [], ["\\Y"], "mfan"⟩

def fanSinkCell (n : String) : Cell :=
  ⟨n, "tsink", [], [], [("\\A", [SigBit.ofWire fanWire 0])], ["\\A"], [], "mfan"⟩

/-- One driver and five sinks on the single-bit wire `w`. -/
def fanModule : RModule :=
  ⟨"mfan", [fanDrvCell, fanSinkCell "s1", fanSinkCell "s2", fanSinkCell "s3",
            fanSinkCell "s4", fanSinkCell "s5"], [fanWire], 0⟩

/-- The pre-computation as claim C1 words it: count only cell-input-port
bit positions referencing the canonical bit. -/
def claimInputUseCount (mod : RModule) (sel : Option Sel) (sigmap : SigBit → SigBit)
    (w : Wire) (o : Nat) : Nat :=
  ((mod.cells.filter (fun c => cellSelected sel c)).flatMap
      (fun c => (c.connections.filter (fun conn => c.input conn.1)).flatMap
        (fun conn => conn.2.map sigmap))).countP
    (fun b => decide (b = SigBit.ofWire w o))

/-- C1 counterexample: wire `w` drives five sink pins; with `maxFanout = 3`
the pre-computed count is 6 — the driver's output position is counted too,
not only the five input positions — and the built graph contains no
connection at all for the bit, rather than retaining the first three. -/
theorem fanout_cap_counterexample :
    sigUseCount fanModule none (fun b => b) fanWire 0 = 6 ∧
    claimInputUseCount fanModule none (fun b => b) fanWire 0 = 5 ∧
    (module2graph fanModule false none 3 none (fun b => b)).map Graph.conns = some [] := by
  refine ⟨by decide, by decide, by decide⟩

/-- C1 amended: the pre-computed count covers every connection bit position
of selected cells (outputs included), and a canonical bit whose count
exceeds the positive fan-out cap contributes no wire action at all — so
the graph gets no connection for that bit, not the first `f` of them. -/
theorem fanout_cap_excludes_bit (mod : RModule) (sel : Option Sel) (mf : Int)
    (split : Option (List (String × String))) (sigmap : SigBit → SigBit)
    (w : Wire) (o : Nat)
    (hmf : 0 < mf) (hcnt : mf < (sigUseCount mod sel sigmap w o : Int)) :
    (bitOccs mod sel mf split sigmap).all (fun occ =>
      match occ with
      | BitOcc.constAct _ _ => true
      | BitOcc.wireAct b _ => decide (b ≠ SigBit.ofWire w o)) = true := by
  rw [List.all_eq_true]
  intro occ hocc
  unfold bitOccs at hocc
  rw [List.mem_flatMap] at hocc
  obtain ⟨c, _, hocc⟩ := hocc
  unfold cellActs at hocc
  rw [List.mem_flatMap] at hocc
  obtain ⟨conn, _, hocc⟩ := hocc
  unfold connActs at hocc
  by_cases hs : splitHit split c conn.1 = true
  · rw [hs] at hocc
    simp at hocc
  · rw [Bool.not_eq_true] at hs
    rw [hs] at hocc
    simp only [Bool.false_eq_true, if_false] at hocc
    rw [List.mem_filterMap] at hocc
    obtain ⟨p, _, hp⟩ := hocc
    obtain ⟨i, bb⟩ := p
    cases bb with
    | lit s =>
      simp only [bitAct] at hp
      cases hp
      rfl
    | ofWire w2 o2 =>
      simp only [bitAct] at hp
      by_cases h1 : (mf > 0 ∧ (mf : Int) < (sigUseCount mod sel sigmap w2 o2 : Int))
      · rw [if_pos h1] at hp
        cases hp
      · rw [if_neg h1] at hp
        by_cases h2 : wireSelected sel w2 = false
        · rw [if_pos h2] at hp
          cases hp
        · rw [if_neg h2] at hp
          cases hp
          rw [decide_eq_true_eq]
          intro heq
          cases heq
          exact h1 ⟨hmf, hcnt⟩

theorem fanout_cap_excludes_bit_witness :
    ((0:Int) < 3 ∧ (3:Int) < (sigUseCount fanModule none (fun b => b) fanWire 0 : Int)) ∧
    (bitOccs fanModule none 3 none (fun b => b)).all (fun occ =>
      match occ with
      | BitOcc.constAct _ _ => true
      | BitOcc.wireAct b _ => decide (b ≠ SigBit.ofWire fanWire 0)) = true :=
  ⟨⟨by decide, by decide⟩,
   fanout_cap_excludes_bit fanModule none 3 none (fun b => b) fanWire 0
     (by decide) (by decide)⟩

/-- `svql::escape_needle_name` (SvqlPass.cpp lines 653-665), embedded as
written: `name.compare(0, n, s)` compares the length-clamped n-character
front of `name` with the whole null-terminated literal `s`. -/
def escape_needle_name (name : String) : String :=
  if name.data.take 7 = "needle_".data then ⟨name.data.drop 7⟩
  else if name.data.take 8 = "haystack_".data then ⟨name.data.drop 8⟩
  else name

/-- C8: a `needle_` prefix is stripped, but the `haystack_` branch compares
an 8-character front against the 9-character literal `"haystack_"` — never
equal — so a name with the `haystack_` prefix comes back unchanged. -/
theorem escape_needle_name_eval :
    escape_needle_name "needle_foo" = "foo" ∧
    escape_needle_name "haystack_foo" = "haystack_foo" ∧
    escape_needle_name "plain" = "plain" := by
  refine ⟨by decide, by decide, by decide⟩
